import Mathlib

/-
  Verification development for the capacity-bounded key/value cache labwork
  (FIFO, LRU, LFU, TTL and ARC eviction policies, plus the grading script).

  The cache engine is the artifact the repository grades, so its Go source is
  not part of the repository; the five policy engines below are modelled from
  the behavioural contract in spec.md.  The grading model at the end of the
  file is embedded from scripts/grade.go, which is part of the repository.
-/

set_option linter.unusedSectionVars false

namespace CacheLab

/-- Modelled from the spec: the single sentinel error kind, KeyNotFound,
covering absence, deletion, eviction and TTL expiry. -/
inductive CacheError where
  | keyNotFound
deriving DecidableEq

/-- Modelled from the spec: the shared sentinel error value ErrKeyNotFound
returned by Get and Delete in every policy. -/
def ErrKeyNotFound : CacheError := CacheError.keyNotFound

variable {K V : Type} [DecidableEq K]

/-- The list of keys of an association list, in list order. -/
def keys (l : List (K × V)) : List K := l.map Prod.fst

/-- Lookup of the first binding of a key in an association list. -/
def lookupKey (k : K) : List (K × V) → Option V
  | [] => none
  | e :: es => if e.1 = k then some e.2 else lookupKey k es

/-- In-place value update: every binding of the key gets the new value and
keeps its position. -/
def updateVal (k : K) (v : V) (l : List (K × V)) : List (K × V) :=
  l.map (fun e => if e.1 = k then (k, v) else e)

/-- Removal of every binding of a key, keeping the order of the rest. -/
def removeKey (k : K) : List (K × V) → List (K × V)
  | [] => []
  | e :: es => if e.1 = k then removeKey k es else e :: removeKey k es

theorem keys_cons (e : K × V) (es : List (K × V)) :
    keys (e :: es) = e.1 :: keys es := rfl

theorem keys_append (l m : List (K × V)) :
    keys (l ++ m) = keys l ++ keys m := by
  simp [keys]

theorem lookupKey_cons (k : K) (e : K × V) (es : List (K × V)) :
    lookupKey k (e :: es) =
      if e.1 = k then some e.2 else lookupKey k es := rfl

theorem updateVal_cons (k : K) (v : V) (e : K × V) (es : List (K × V)) :
    updateVal k v (e :: es) =
      (if e.1 = k then (k, v) else e) :: updateVal k v es := rfl

theorem removeKey_cons (k : K) (e : K × V) (es : List (K × V)) :
    removeKey k (e :: es) =
      if e.1 = k then removeKey k es else e :: removeKey k es := rfl

theorem mem_keys_cons (k : K) (e : K × V) (es : List (K × V)) :
    k ∈ keys (e :: es) ↔ e.1 = k ∨ k ∈ keys es := by
  rw [keys_cons, List.mem_cons]
  exact or_congr_left eq_comm

theorem lookupKey_of_not_mem (k : K) (l : List (K × V)) (h : k ∉ keys l) :
    lookupKey k l = none := by
  induction l with
  | nil => rfl
  | cons e es ih =>
    rw [lookupKey_cons]
    have he : ¬ e.1 = k := fun hh => h ((mem_keys_cons k e es).mpr (Or.inl hh))
    rw [if_neg he]
    exact ih (fun hh => h ((mem_keys_cons k e es).mpr (Or.inr hh)))

theorem length_updateVal (k : K) (v : V) (l : List (K × V)) :
    (updateVal k v l).length = l.length := by
  simp [updateVal]

theorem keys_updateVal (k : K) (v : V) (l : List (K × V)) :
    keys (updateVal k v l) = keys l := by
  induction l with
  | nil => rfl
  | cons e es ih =>
    rw [updateVal_cons, keys_cons, keys_cons, ih]
    by_cases h : e.1 = k
    · rw [if_pos h, h]
    · rw [if_neg h]

theorem lookupKey_updateVal_self (k : K) (v : V) (l : List (K × V))
    (h : k ∈ keys l) : lookupKey k (updateVal k v l) = some v := by
  induction l with
  | nil => exact absurd h (by simp [keys])
  | cons e es ih =>
    rw [updateVal_cons, lookupKey_cons]
    by_cases he : e.1 = k
    · rw [if_pos he]
      simp
    · rw [if_neg he]
      have : ¬ (e.1 = k) := he
      rw [if_neg this]
      rcases (mem_keys_cons k e es).mp h with h1 | h2
      · exact absurd h1 he
      · exact ih h2

theorem lookupKey_updateVal_ne (j k : K) (v : V) (l : List (K × V))
    (h : j ≠ k) : lookupKey j (updateVal k v l) = lookupKey j l := by
  induction l with
  | nil => rfl
  | cons e es ih =>
    rw [updateVal_cons, lookupKey_cons, lookupKey_cons]
    by_cases he : e.1 = k
    · rw [if_pos he]
      have hkj : ¬ ((k, v).1 = j) := fun hh => h (hh.symm)
      have hej : ¬ (e.1 = j) := fun hh => h (he.symm.trans hh).symm
      rw [if_neg hkj, if_neg hej]
      exact ih
    · rw [if_neg he]
      by_cases hej : e.1 = j
      · rw [if_pos hej, if_pos hej]
      · rw [if_neg hej, if_neg hej]
        exact ih

theorem length_removeKey_le (k : K) (l : List (K × V)) :
    (removeKey k l).length ≤ l.length := by
  induction l with
  | nil => exact Nat.le_refl 0
  | cons e es ih =>
    rw [removeKey_cons]
    by_cases h : e.1 = k
    · rw [if_pos h]
      exact Nat.le_succ_of_le ih
    · rw [if_neg h, List.length_cons, List.length_cons]
      exact Nat.succ_le_succ ih

theorem length_removeKey_lt (k : K) (l : List (K × V)) (h : k ∈ keys l) :
    (removeKey k l).length < l.length := by
  induction l with
  | nil => exact absurd h (by simp [keys])
  | cons e es ih =>
    rw [removeKey_cons]
    by_cases he : e.1 = k
    · rw [if_pos he, List.length_cons]
      exact Nat.lt_succ_of_le (length_removeKey_le k es)
    · rw [if_neg he, List.length_cons, List.length_cons]
      rcases (mem_keys_cons k e es).mp h with h1 | h2
      · exact absurd h1 he
      · exact Nat.succ_lt_succ (ih h2)

theorem not_mem_keys_removeKey (k : K) (l : List (K × V)) :
    k ∉ keys (removeKey k l) := by
  induction l with
  | nil => simp [removeKey, keys]
  | cons e es ih =>
    rw [removeKey_cons]
    by_cases h : e.1 = k
    · rw [if_pos h]
      exact ih
    · rw [if_neg h]
      intro hk
      rcases (mem_keys_cons k e (removeKey k es)).mp hk with h1 | h2
      · exact h h1
      · exact ih h2

theorem lookupKey_removeKey_ne (j k : K) (l : List (K × V)) (h : j ≠ k) :
    lookupKey j (removeKey k l) = lookupKey j l := by
  induction l with
  | nil => rfl
  | cons e es ih =>
    rw [removeKey_cons, lookupKey_cons]
    by_cases he : e.1 = k
    · rw [if_pos he]
      have hej : ¬ (e.1 = j) := fun hh => h (he.symm.trans hh).symm
      rw [if_neg hej]
      exact ih
    · rw [if_neg he, lookupKey_cons]
      by_cases hej : e.1 = j
      · rw [if_pos hej, if_pos hej]
      · rw [if_neg hej, if_neg hej]
        exact ih

theorem lookupKey_append (j : K) (l m : List (K × V)) :
    lookupKey j (l ++ m) =
      match lookupKey j l with
      | some v => some v
      | none => lookupKey j m := by
  induction l with
  | nil => rfl
  | cons e es ih =>
    rw [List.cons_append, lookupKey_cons, lookupKey_cons]
    by_cases h : e.1 = j
    · rw [if_pos h, if_pos h]
    · rw [if_neg h, if_neg h]
      exact ih

theorem mem_keys_append_right (k : K) (l : List (K × V)) (v : V) :
    k ∈ keys (l ++ [(k, v)]) := by
  rw [keys_append]
  exact List.mem_append_right _ (by simp [keys])

/-- Modelled from the spec: the FIFO cache state, a fixed capacity and the
entries in insertion order (oldest first).  The Go engine is not in the
repository source. -/
structure FIFOCache (K V : Type) where
  capacity : Nat
  entries : List (K × V)

/-- The number of stored entries of a FIFO cache. -/
def FIFOCache.size (c : FIFOCache K V) : Nat := c.entries.length

/-- Modelled from the spec: FIFO Set.  Re-Set of a present key updates the
value in place without moving its insertion position; a new key at a full
cache first evicts the oldest entry (the queue head), then appends. -/
def FIFOCache.setCore (c : FIFOCache K V) (k : K) (v : V) : FIFOCache K V :=
  if k ∈ keys c.entries then
    { c with entries := updateVal k v c.entries }
  else
    { c with entries :=
        (if c.entries.length = c.capacity then c.entries.drop 1
         else c.entries) ++ [(k, v)] }

/-- Modelled from the spec: FIFO Set never fails on a constructed cache. -/
def FIFOCache.set (c : FIFOCache K V) (k : K) (v : V) :
    Except CacheError (FIFOCache K V) :=
  Except.ok (c.setCore k v)

/-- Modelled from the spec: FIFO Get has no bookkeeping side effect; it
returns the stored value or the sentinel error. -/
def FIFOCache.get (c : FIFOCache K V) (k : K) : Except CacheError V :=
  match lookupKey k c.entries with
  | some v => Except.ok v
  | none => Except.error CacheError.keyNotFound

/-- Modelled from the spec: FIFO Delete fails with the sentinel on an absent
key, otherwise removes the entry. -/
def FIFOCache.delete (c : FIFOCache K V) (k : K) :
    Except CacheError (FIFOCache K V) :=
  if k ∈ keys c.entries then
    Except.ok { c with entries := removeKey k c.entries }
  else Except.error CacheError.keyNotFound

/-- Modelled from the spec: Clear removes all entries and never fails. -/
def FIFOCache.clear (c : FIFOCache K V) : FIFOCache K V :=
  { c with entries := [] }

/-- Modelled from the spec: the FIFO constructor fails (returns none) at
construction time when the capacity is not positive. -/
def NewFIFOCache (K V : Type) (capacity : Int) : Option (FIFOCache K V) :=
  if capacity ≤ 0 then none
  else some { capacity := capacity.toNat, entries := [] }

/-- An operation of the shared cache contract, restricted to Set and Get,
used to quantify over interleavings of calls. -/
inductive CacheOp (K V : Type) where
  | set (k : K) (v : V)
  | get (k : K)

/-- Applying one operation to a FIFO cache; Get has no side effect on the
state (spec, FIFO policy). -/
def FIFOCache.applyOp (c : FIFOCache K V) : CacheOp K V → FIFOCache K V
  | CacheOp.set k v => c.setCore k v
  | CacheOp.get _ => c

/-- Applying a sequence of operations to a FIFO cache, left to right. -/
def FIFOCache.applyOps (c : FIFOCache K V) (ops : List (CacheOp K V)) :
    FIFOCache K V :=
  ops.foldl FIFOCache.applyOp c

/-- Applying a sequence of Set calls to a FIFO cache, left to right. -/
def FIFOCache.applySets (c : FIFOCache K V) (ops : List (K × V)) :
    FIFOCache K V :=
  ops.foldl (fun s e => s.setCore e.1 e.2) c

theorem fifo_capacity_setCore (c : FIFOCache K V) (k : K) (v : V) :
    (c.setCore k v).capacity = c.capacity := by
  unfold FIFOCache.setCore
  by_cases h : k ∈ keys c.entries
  · rw [if_pos h]
  · rw [if_neg h]

theorem fifo_size_setCore_le (c : FIFOCache K V) (k : K) (v : V)
    (hcap : 1 ≤ c.capacity) (hle : c.size ≤ c.capacity) :
    (c.setCore k v).size ≤ c.capacity := by
  unfold FIFOCache.setCore FIFOCache.size at *
  by_cases h : k ∈ keys c.entries
  · rw [if_pos h]
    simpa [length_updateVal] using hle
  · rw [if_neg h]
    by_cases hfull : c.entries.length = c.capacity
    · rw [if_pos hfull]
      simp only [List.length_append, List.length_drop, List.length_cons,
        List.length_nil]
      omega
    · rw [if_neg hfull]
      simp only [List.length_append, List.length_cons, List.length_nil]
      omega

theorem fifo_size_applySets_le (c : FIFOCache K V) (ops : List (K × V))
    (hcap : 1 ≤ c.capacity) (hle : c.size ≤ c.capacity) :
    (c.applySets ops).size ≤ c.capacity := by
  induction ops generalizing c with
  | nil => exact hle
  | cons op rest ih =>
    have hcap2 : 1 ≤ (c.setCore op.1 op.2).capacity := by
      rw [fifo_capacity_setCore]; exact hcap
    have hle2 : (c.setCore op.1 op.2).size ≤ (c.setCore op.1 op.2).capacity := by
      rw [fifo_capacity_setCore]
      exact fifo_size_setCore_le c op.1 op.2 hcap hle
    have := ih (c.setCore op.1 op.2) hcap2 hle2
    rw [fifo_capacity_setCore] at this
    exact this

theorem fifo_size_setCore_full (c : FIFOCache K V) (k : K) (v : V)
    (hcap : 1 ≤ c.capacity) (hfull : c.size = c.capacity)
    (hnew : k ∉ keys c.entries) :
    (c.setCore k v).size = c.capacity ∧
      k ∈ keys (c.setCore k v).entries := by
  unfold FIFOCache.setCore FIFOCache.size at *
  rw [if_neg hnew, if_pos hfull]
  constructor
  · simp only [List.length_append, List.length_drop, List.length_cons,
      List.length_nil]
    omega
  · exact mem_keys_append_right k _ v

/-- Modelled from the spec: the LRU cache state; the entries are kept from
least-recently-used (front) to most-recently-used (back). -/
structure LRUCache (K V : Type) where
  capacity : Nat
  entries : List (K × V)

/-- The number of stored entries of an LRU cache. -/
def LRUCache.size (c : LRUCache K V) : Nat := c.entries.length

/-- Modelled from the spec: LRU Set moves the key to the most-recently-used
end (new or update); a new key at a full cache evicts the
least-recently-used front entry. -/
def LRUCache.setCore (c : LRUCache K V) (k : K) (v : V) : LRUCache K V :=
  if k ∈ keys c.entries then
    { c with entries := removeKey k c.entries ++ [(k, v)] }
  else
    { c with entries :=
        (if c.entries.length = c.capacity then c.entries.drop 1
         else c.entries) ++ [(k, v)] }

/-- Modelled from the spec: LRU Set never fails on a constructed cache. -/
def LRUCache.set (c : LRUCache K V) (k : K) (v : V) :
    Except CacheError (LRUCache K V) :=
  Except.ok (c.setCore k v)

/-- Modelled from the spec: LRU Get returns the value and moves the key to
the most-recently-used end, or fails with the sentinel error. -/
def LRUCache.get (c : LRUCache K V) (k : K) :
    Except CacheError V × LRUCache K V :=
  match lookupKey k c.entries with
  | some v => (Except.ok v, { c with entries := removeKey k c.entries ++ [(k, v)] })
  | none => (Except.error CacheError.keyNotFound, c)

/-- Modelled from the spec: LRU Delete. -/
def LRUCache.delete (c : LRUCache K V) (k : K) :
    Except CacheError (LRUCache K V) :=
  if k ∈ keys c.entries then
    Except.ok { c with entries := removeKey k c.entries }
  else Except.error CacheError.keyNotFound

/-- Modelled from the spec: LRU Clear. -/
def LRUCache.clear (c : LRUCache K V) : LRUCache K V := { c with entries := [] }

/-- Modelled from the spec: the LRU constructor fails when capacity is not
positive. -/
def NewLRUCache (K V : Type) (capacity : Int) : Option (LRUCache K V) :=
  if capacity ≤ 0 then none
  else some { capacity := capacity.toNat, entries := [] }

/-- Applying a sequence of Set calls to an LRU cache, left to right. -/
def LRUCache.applySets (c : LRUCache K V) (ops : List (K × V)) :
    LRUCache K V :=
  ops.foldl (fun s e => s.setCore e.1 e.2) c

theorem lru_capacity_setCore (c : LRUCache K V) (k : K) (v : V) :
    (c.setCore k v).capacity = c.capacity := by
  unfold LRUCache.setCore
  by_cases h : k ∈ keys c.entries
  · rw [if_pos h]
  · rw [if_neg h]

theorem lru_size_setCore_le (c : LRUCache K V) (k : K) (v : V)
    (hcap : 1 ≤ c.capacity) (hle : c.size ≤ c.capacity) :
    (c.setCore k v).size ≤ c.capacity := by
  unfold LRUCache.setCore LRUCache.size at *
  by_cases h : k ∈ keys c.entries
  · rw [if_pos h]
    have := length_removeKey_lt k c.entries h
    simp only [List.length_append, List.length_cons, List.length_nil]
    omega
  · rw [if_neg h]
    by_cases hfull : c.entries.length = c.capacity
    · rw [if_pos hfull]
      simp only [List.length_append, List.length_drop, List.length_cons,
        List.length_nil]
      omega
    · rw [if_neg hfull]
      simp only [List.length_append, List.length_cons, List.length_nil]
      omega

theorem lru_size_applySets_le (c : LRUCache K V) (ops : List (K × V))
    (hcap : 1 ≤ c.capacity) (hle : c.size ≤ c.capacity) :
    (c.applySets ops).size ≤ c.capacity := by
  induction ops generalizing c with
  | nil => exact hle
  | cons op rest ih =>
    have hcap2 : 1 ≤ (c.setCore op.1 op.2).capacity := by
      rw [lru_capacity_setCore]; exact hcap
    have hle2 : (c.setCore op.1 op.2).size ≤ (c.setCore op.1 op.2).capacity := by
      rw [lru_capacity_setCore]
      exact lru_size_setCore_le c op.1 op.2 hcap hle
    have := ih (c.setCore op.1 op.2) hcap2 hle2
    rw [lru_capacity_setCore] at this
    exact this

theorem lru_size_setCore_full (c : LRUCache K V) (k : K) (v : V)
    (hcap : 1 ≤ c.capacity) (hfull : c.size = c.capacity)
    (hnew : k ∉ keys c.entries) :
    (c.setCore k v).size = c.capacity ∧
      k ∈ keys (c.setCore k v).entries := by
  unfold LRUCache.setCore LRUCache.size at *
  rw [if_neg hnew, if_pos hfull]
  constructor
  · simp only [List.length_append, List.length_drop, List.length_cons,
      List.length_nil]
    omega
  · exact mem_keys_append_right k _ v

/-- The smallest frequency field occurring in an LFU entry list (0 for the
empty list). -/
def minFreq : List (K × V × Nat) → Nat
  | [] => 0
  | [e] => e.2.2
  | e :: f :: fs => min e.2.2 (minFreq (f :: fs))

/-- Removal of the first entry carrying the given frequency. -/
def removeFirstFreq (m : Nat) : List (K × V × Nat) → List (K × V × Nat)
  | [] => []
  | e :: es => if e.2.2 = m then es else e :: removeFirstFreq m es

/-- Modelled from the spec: LFU eviction removes the entry with the
strictly smallest frequency, ties broken by the oldest position in the
insertion-ordered list. -/
def evictLFU (l : List (K × V × Nat)) : List (K × V × Nat) :=
  removeFirstFreq (minFreq l) l

/-- Value update on an LFU entry list: new value, frequency bumped by one,
position unchanged. -/
def touchSet (k : K) (v : V) (l : List (K × V × Nat)) : List (K × V × Nat) :=
  l.map (fun e => if e.1 = k then (k, v, e.2.2 + 1) else e)

/-- Read touch on an LFU entry list: frequency bumped by one, value and
position unchanged. -/
def touchGet (k : K) (l : List (K × V × Nat)) : List (K × V × Nat) :=
  l.map (fun e => if e.1 = k then (k, e.2.1, e.2.2 + 1) else e)

theorem exists_mem_minFreq (l : List (K × V × Nat)) (h : l ≠ []) :
    ∃ e ∈ l, e.2.2 = minFreq l := by
  induction l with
  | nil => exact absurd rfl h
  | cons e es ih =>
    cases es with
    | nil => exact ⟨e, List.mem_cons_self e [], rfl⟩
    | cons f fs =>
      by_cases hle : e.2.2 ≤ minFreq (f :: fs)
      · refine ⟨e, List.mem_cons_self e (f :: fs), ?_⟩
        show e.2.2 = min e.2.2 (minFreq (f :: fs))
        exact (Nat.min_eq_left hle).symm
      · rcases ih (by simp) with ⟨x, hx, hfx⟩
        refine ⟨x, List.mem_cons_of_mem e hx, ?_⟩
        show x.2.2 = min e.2.2 (minFreq (f :: fs))
        rw [Nat.min_eq_right (Nat.le_of_not_le hle)]
        exact hfx

theorem length_removeFirstFreq (m : Nat) (l : List (K × V × Nat))
    (h : ∃ e ∈ l, e.2.2 = m) :
    (removeFirstFreq m l).length + 1 = l.length := by
  induction l with
  | nil => simp at h
  | cons e es ih =>
    show (if e.2.2 = m then es else e :: removeFirstFreq m es).length + 1 =
      es.length + 1
    by_cases he : e.2.2 = m
    · rw [if_pos he]
    · rw [if_neg he]
      rcases h with ⟨x, hx, hxm⟩
      rcases List.mem_cons.mp hx with h1 | h2
      · exact absurd (h1 ▸ hxm) he
      · rw [List.length_cons, ih ⟨x, h2, hxm⟩]

theorem length_evictLFU (l : List (K × V × Nat)) (h : l ≠ []) :
    (evictLFU l).length + 1 = l.length :=
  length_removeFirstFreq (minFreq l) l (exists_mem_minFreq l h)

theorem length_touchSet (k : K) (v : V) (l : List (K × V × Nat)) :
    (touchSet k v l).length = l.length := by
  simp [touchSet]

/-- Modelled from the spec: the LFU cache state; entries carry a frequency
count and are kept in insertion order for the deterministic tie-break. -/
structure LFUCache (K V : Type) where
  capacity : Nat
  entries : List (K × V × Nat)

/-- The number of stored entries of an LFU cache. -/
def LFUCache.size (c : LFUCache K V) : Nat := c.entries.length

/-- Modelled from the spec: LFU Set.  An update bumps the frequency and
replaces the value in place; a new key enters with frequency 1 after
evicting the least-frequent entry when the cache is full. -/
def LFUCache.setCore (c : LFUCache K V) (k : K) (v : V) : LFUCache K V :=
  if k ∈ keys c.entries then
    { c with entries := touchSet k v c.entries }
  else
    { c with entries :=
        (if c.entries.length = c.capacity then evictLFU c.entries
         else c.entries) ++ [(k, v, 1)] }

/-- Modelled from the spec: LFU Set never fails on a constructed cache. -/
def LFUCache.set (c : LFUCache K V) (k : K) (v : V) :
    Except CacheError (LFUCache K V) :=
  Except.ok (c.setCore k v)

/-- Modelled from the spec: LFU Get increments the frequency of the key by
one and returns the stored value, or fails with the sentinel error. -/
def LFUCache.get (c : LFUCache K V) (k : K) :
    Except CacheError V × LFUCache K V :=
  match lookupKey k c.entries with
  | some vf => (Except.ok vf.1, { c with entries := touchGet k c.entries })
  | none => (Except.error CacheError.keyNotFound, c)

/-- Modelled from the spec: LFU Delete. -/
def LFUCache.delete (c : LFUCache K V) (k : K) :
    Except CacheError (LFUCache K V) :=
  if k ∈ keys c.entries then
    Except.ok { c with entries := removeKey k c.entries }
  else Except.error CacheError.keyNotFound

/-- Modelled from the spec: LFU Clear. -/
def LFUCache.clear (c : LFUCache K V) : LFUCache K V := { c with entries := [] }

/-- Modelled from the spec: the LFU constructor fails when capacity is not
positive. -/
def NewLFUCache (K V : Type) (capacity : Int) : Option (LFUCache K V) :=
  if capacity ≤ 0 then none
  else some { capacity := capacity.toNat, entries := [] }

/-- Applying a sequence of Set calls to an LFU cache, left to right. -/
def LFUCache.applySets (c : LFUCache K V) (ops : List (K × V)) :
    LFUCache K V :=
  ops.foldl (fun s e => s.setCore e.1 e.2) c

theorem lfu_capacity_setCore (c : LFUCache K V) (k : K) (v : V) :
    (c.setCore k v).capacity = c.capacity := by
  unfold LFUCache.setCore
  by_cases h : k ∈ keys c.entries
  · rw [if_pos h]
  · rw [if_neg h]

theorem lfu_size_setCore_le (c : LFUCache K V) (k : K) (v : V)
    (hcap : 1 ≤ c.capacity) (hle : c.size ≤ c.capacity) :
    (c.setCore k v).size ≤ c.capacity := by
  unfold LFUCache.setCore LFUCache.size at *
  by_cases h : k ∈ keys c.entries
  · rw [if_pos h]
    simpa [length_touchSet] using hle
  · rw [if_neg h]
    by_cases hfull : c.entries.length = c.capacity
    · rw [if_pos hfull]
      have hne : c.entries ≠ [] := by
        intro hnil
        rw [hnil] at hfull
        simp at hfull
        omega
      have := length_evictLFU c.entries hne
      simp only [List.length_append, List.length_cons, List.length_nil]
      omega
    · rw [if_neg hfull]
      simp only [List.length_append, List.length_cons, List.length_nil]
      omega

theorem lfu_size_applySets_le (c : LFUCache K V) (ops : List (K × V))
    (hcap : 1 ≤ c.capacity) (hle : c.size ≤ c.capacity) :
    (c.applySets ops).size ≤ c.capacity := by
  induction ops generalizing c with
  | nil => exact hle
  | cons op rest ih =>
    have hcap2 : 1 ≤ (c.setCore op.1 op.2).capacity := by
      rw [lfu_capacity_setCore]; exact hcap
    have hle2 : (c.setCore op.1 op.2).size ≤ (c.setCore op.1 op.2).capacity := by
      rw [lfu_capacity_setCore]
      exact lfu_size_setCore_le c op.1 op.2 hcap hle
    have := ih (c.setCore op.1 op.2) hcap2 hle2
    rw [lfu_capacity_setCore] at this
    exact this

theorem lfu_size_setCore_full (c : LFUCache K V) (k : K) (v : V)
    (hcap : 1 ≤ c.capacity) (hfull : c.size = c.capacity)
    (hnew : k ∉ keys c.entries) :
    (c.setCore k v).size = c.capacity ∧
      k ∈ keys (c.setCore k v).entries := by
  unfold LFUCache.setCore LFUCache.size at *
  rw [if_neg hnew, if_pos hfull]
  have hne : c.entries ≠ [] := by
    intro hnil
    rw [hnil] at hfull
    simp at hfull
    omega
  have := length_evictLFU c.entries hne
  constructor
  · simp only [List.length_append, List.length_cons, List.length_nil]
    omega
  · exact mem_keys_append_right k _ (v, 1)

/-- Modelled from the spec: the TTL cache state; each entry carries its
absolute expiry instant (times are naturals, in milliseconds), and entries
are kept in insertion order. -/
structure TTLCache (K V : Type) where
  capacity : Nat
  ttl : Nat
  entries : List (K × V × Nat)

/-- The number of stored entries of a TTL cache. -/
def TTLCache.size (c : TTLCache K V) : Nat := c.entries.length

/-- Modelled from the spec: TTL Set stamps the entry with expiry instant
current time plus the configured duration, refreshing it on every Set; a
new key at a full cache evicts the oldest entry. -/
def TTLCache.setCore (c : TTLCache K V) (now : Nat) (k : K) (v : V) :
    TTLCache K V :=
  if k ∈ keys c.entries then
    { c with entries := updateVal k (v, now + c.ttl) c.entries }
  else
    { c with entries :=
        (if c.entries.length = c.capacity then c.entries.drop 1
         else c.entries) ++ [(k, v, now + c.ttl)] }

/-- Modelled from the spec: TTL Set never fails on a constructed cache. -/
def TTLCache.set (c : TTLCache K V) (now : Nat) (k : K) (v : V) :
    Except CacheError (TTLCache K V) :=
  Except.ok (c.setCore now k v)

/-- Modelled from the spec: TTL Get checks expiry lazily; at or past the
expiry instant the entry is removed and the call fails with the sentinel,
otherwise the value is returned and the state is unchanged. -/
def TTLCache.get (c : TTLCache K V) (now : Nat) (k : K) :
    Except CacheError V × TTLCache K V :=
  match lookupKey k c.entries with
  | some ve =>
    if ve.2 ≤ now then
      (Except.error CacheError.keyNotFound,
        { c with entries := removeKey k c.entries })
    else (Except.ok ve.1, c)
  | none => (Except.error CacheError.keyNotFound, c)

/-- Modelled from the spec: TTL Delete, independent of expiry state. -/
def TTLCache.delete (c : TTLCache K V) (k : K) :
    Except CacheError (TTLCache K V) :=
  if k ∈ keys c.entries then
    Except.ok { c with entries := removeKey k c.entries }
  else Except.error CacheError.keyNotFound

/-- Modelled from the spec: TTL Clear. -/
def TTLCache.clear (c : TTLCache K V) : TTLCache K V := { c with entries := [] }

/-- Modelled from the spec: the TTL constructor fails when capacity is not
positive; the duration is the per-entry time to live. -/
def NewTTLCache (K V : Type) (capacity : Int) (ttl : Nat) :
    Option (TTLCache K V) :=
  if capacity ≤ 0 then none
  else some { capacity := capacity.toNat, ttl := ttl, entries := [] }

/-- Applying a sequence of timestamped Set calls to a TTL cache. -/
def TTLCache.applySets (c : TTLCache K V) (ops : List (Nat × K × V)) :
    TTLCache K V :=
  ops.foldl (fun s e => s.setCore e.1 e.2.1 e.2.2) c

theorem ttl_capacity_setCore (c : TTLCache K V) (now : Nat) (k : K)
    (v : V) : (c.setCore now k v).capacity = c.capacity := by
  unfold TTLCache.setCore
  by_cases h : k ∈ keys c.entries
  · rw [if_pos h]
  · rw [if_neg h]

theorem ttl_size_setCore_le (c : TTLCache K V) (now : Nat) (k : K)
    (v : V) (hcap : 1 ≤ c.capacity) (hle : c.size ≤ c.capacity) :
    (c.setCore now k v).size ≤ c.capacity := by
  unfold TTLCache.setCore TTLCache.size at *
  by_cases h : k ∈ keys c.entries
  · rw [if_pos h]
    simpa [length_updateVal] using hle
  · rw [if_neg h]
    by_cases hfull : c.entries.length = c.capacity
    · rw [if_pos hfull]
      simp only [List.length_append, List.length_drop, List.length_cons,
        List.length_nil]
      omega
    · rw [if_neg hfull]
      simp only [List.length_append, List.length_cons, List.length_nil]
      omega

theorem ttl_size_applySets_le (c : TTLCache K V)
    (ops : List (Nat × K × V)) (hcap : 1 ≤ c.capacity)
    (hle : c.size ≤ c.capacity) :
    (c.applySets ops).size ≤ c.capacity := by
  induction ops generalizing c with
  | nil => exact hle
  | cons op rest ih =>
    have hcap2 : 1 ≤ (c.setCore op.1 op.2.1 op.2.2).capacity := by
      rw [ttl_capacity_setCore]; exact hcap
    have hle2 : (c.setCore op.1 op.2.1 op.2.2).size ≤
        (c.setCore op.1 op.2.1 op.2.2).capacity := by
      rw [ttl_capacity_setCore]
      exact ttl_size_setCore_le c op.1 op.2.1 op.2.2 hcap hle
    have := ih (c.setCore op.1 op.2.1 op.2.2) hcap2 hle2
    rw [ttl_capacity_setCore] at this
    exact this

theorem ttl_size_setCore_full (c : TTLCache K V) (now : Nat) (k : K)
    (v : V) (hcap : 1 ≤ c.capacity) (hfull : c.size = c.capacity)
    (hnew : k ∉ keys c.entries) :
    (c.setCore now k v).size = c.capacity ∧
      k ∈ keys (c.setCore now k v).entries := by
  unfold TTLCache.setCore TTLCache.size at *
  rw [if_neg hnew, if_pos hfull]
  constructor
  · simp only [List.length_append, List.length_drop, List.length_cons,
      List.length_nil]
    omega
  · exact mem_keys_append_right k _ (v, now + c.ttl)

/-- Modelled from the spec: the ARC cache state: resident lists T1 (seen
once) and T2 (seen at least twice) with the most-recently-used entry at the
head, ghost key lists B1 and B2, and the adaptation parameter p. -/
structure ARCCache (K V : Type) where
  capacity : Nat
  t1 : List (K × V)
  t2 : List (K × V)
  b1 : List K
  b2 : List K
  p : Nat

/-- The number of resident entries of an ARC cache. -/
def ARCCache.size (c : ARCCache K V) : Nat := c.t1.length + c.t2.length

/-- Modelled from the spec: eviction of the least-recently-used end of T1
into the ghost list B1, which is trimmed to the cache capacity. -/
def ARCCache.evictT1 (c : ARCCache K V) : ARCCache K V :=
  { c with t1 := c.t1.dropLast,
           b1 := match c.t1.getLast? with
                 | some e => (e.1 :: c.b1).take c.capacity
                 | none => c.b1 }

/-- Modelled from the spec: eviction of the least-recently-used end of T2
into the ghost list B2, which is trimmed to the cache capacity. -/
def ARCCache.evictT2 (c : ARCCache K V) : ARCCache K V :=
  { c with t2 := c.t2.dropLast,
           b2 := match c.t2.getLast? with
                 | some e => (e.1 :: c.b2).take c.capacity
                 | none => c.b2 }

/-- Modelled from the spec: the ARC replacement rule at a full cache: if T1
is nonempty and either T1 exceeds its target p, or the miss came from B2
and T1 meets the target exactly, the least-recently-used end of T1 moves to
B1; otherwise the least-recently-used end of T2 moves to B2 (falling back
to T1 in the degenerate case of an empty T2). -/
def ARCCache.replace (c : ARCCache K V) (fromB2 : Bool) : ARCCache K V :=
  if 1 ≤ c.t1.length ∧
      (c.p < c.t1.length ∨ (fromB2 = true ∧ c.t1.length = c.p)) then
    c.evictT1
  else if c.t2.length = 0 then c.evictT1 else c.evictT2

/-- Replacement step guarded by the capacity check: it runs only when the
resident lists are full. -/
def ARCCache.maybeReplace (c : ARCCache K V) (fromB2 : Bool) : ARCCache K V :=
  if c.size = c.capacity then c.replace fromB2 else c

/-- Modelled from the spec: the adaptation increment for a B1 ghost hit,
proportional to the ghost list length ratio and at least one. -/
def ARCCache.deltaUp (c : ARCCache K V) : Nat :=
  max 1 (c.b2.length / max c.b1.length 1)

/-- Modelled from the spec: the adaptation decrement for a B2 ghost hit,
proportional to the ghost list length ratio and at least one. -/
def ARCCache.deltaDown (c : ARCCache K V) : Nat :=
  max 1 (c.b1.length / max c.b2.length 1)

/-- Modelled from the spec: ARC Set.  A hit in T1 or T2 moves the entry to
the most-recently-used head of T2; a miss whose ghost is in B1 grows p by
max 1 of the ratio of the ghost list lengths, clamped at the capacity,
drops the ghost and admits the entry at the head of T2; a miss whose ghost
is in B2 shrinks p likewise and admits at the head of T2; a cold miss
admits at the head of T1, each after the replacement step when full. -/
def ARCCache.setCore (c : ARCCache K V) (k : K) (v : V) : ARCCache K V :=
  if k ∈ keys c.t1 then
    { c with t1 := removeKey k c.t1, t2 := (k, v) :: removeKey k c.t2 }
  else if k ∈ keys c.t2 then
    { c with t2 := (k, v) :: removeKey k c.t2 }
  else if k ∈ c.b1 then
    let cp : ARCCache K V := { c with p := min c.capacity (c.p + c.deltaUp) }
    let cr := cp.maybeReplace false
    { cr with t2 := (k, v) :: cr.t2,
              b1 := cr.b1.filter (fun j => decide (j ≠ k)) }
  else if k ∈ c.b2 then
    let cp : ARCCache K V := { c with p := c.p - c.deltaDown }
    let cr := cp.maybeReplace true
    { cr with t2 := (k, v) :: cr.t2,
              b2 := cr.b2.filter (fun j => decide (j ≠ k)) }
  else
    let cr := c.maybeReplace false
    { cr with t1 := (k, v) :: cr.t1 }

/-- Modelled from the spec: ARC Set never fails on a constructed cache. -/
def ARCCache.set (c : ARCCache K V) (k : K) (v : V) :
    Except CacheError (ARCCache K V) :=
  Except.ok (c.setCore k v)

/-- Modelled from the spec: ARC Get.  A hit in T1 promotes the entry to the
head of T2, a hit in T2 refreshes it to the head of T2; a miss fails with
the sentinel, after adapting p and dropping the ghost when the key is in a
ghost list. -/
def ARCCache.get (c : ARCCache K V) (k : K) :
    Except CacheError V × ARCCache K V :=
  match lookupKey k c.t1 with
  | some v =>
    (Except.ok v,
      { c with t1 := removeKey k c.t1, t2 := (k, v) :: removeKey k c.t2 })
  | none =>
    match lookupKey k c.t2 with
    | some v => (Except.ok v, { c with t2 := (k, v) :: removeKey k c.t2 })
    | none =>
      if k ∈ c.b1 then
        (Except.error CacheError.keyNotFound,
          { c with p := min c.capacity (c.p + c.deltaUp),
                   b1 := c.b1.filter (fun j => decide (j ≠ k)) })
      else if k ∈ c.b2 then
        (Except.error CacheError.keyNotFound,
          { c with p := c.p - c.deltaDown,
                   b2 := c.b2.filter (fun j => decide (j ≠ k)) })
      else (Except.error CacheError.keyNotFound, c)

/-- Modelled from the spec: ARC Delete removes the entry and all its policy
bookkeeping, failing with the sentinel when the key is not resident. -/
def ARCCache.delete (c : ARCCache K V) (k : K) :
    Except CacheError (ARCCache K V) :=
  if k ∈ keys c.t1 ∨ k ∈ keys c.t2 then
    Except.ok
      { c with t1 := removeKey k c.t1, t2 := removeKey k c.t2,
               b1 := c.b1.filter (fun j => decide (j ≠ k)),
               b2 := c.b2.filter (fun j => decide (j ≠ k)) }
  else Except.error CacheError.keyNotFound

/-- Modelled from the spec: ARC Clear. -/
def ARCCache.clear (c : ARCCache K V) : ARCCache K V :=
  { c with t1 := [], t2 := [], b1 := [], b2 := [], p := 0 }

/-- Modelled from the spec: the ARC constructor fails when capacity is not
positive; it starts with empty lists and p at zero. -/
def NewARCCache (K V : Type) (capacity : Int) : Option (ARCCache K V) :=
  if capacity ≤ 0 then none
  else some { capacity := capacity.toNat, t1 := [], t2 := [],
              b1 := [], b2 := [], p := 0 }

/-- Applying a sequence of Set calls to an ARC cache, left to right. -/
def ARCCache.applySets (c : ARCCache K V) (ops : List (K × V)) :
    ARCCache K V :=
  ops.foldl (fun s e => s.setCore e.1 e.2) c

theorem ARCCache.size_evictT1 (c : ARCCache K V) :
    c.evictT1.size = (c.t1.length - 1) + c.t2.length := by
  simp only [ARCCache.evictT1, ARCCache.size, List.length_dropLast]

theorem ARCCache.size_evictT2 (c : ARCCache K V) :
    c.evictT2.size = c.t1.length + (c.t2.length - 1) := by
  simp only [ARCCache.evictT2, ARCCache.size, List.length_dropLast]

theorem ARCCache.capacity_replace (c : ARCCache K V) (b : Bool) :
    (c.replace b).capacity = c.capacity := by
  unfold ARCCache.replace
  split
  · rfl
  · split
    · rfl
    · rfl

theorem ARCCache.p_replace (c : ARCCache K V) (b : Bool) :
    (c.replace b).p = c.p := by
  unfold ARCCache.replace
  split
  · rfl
  · split
    · rfl
    · rfl

theorem ARCCache.t1_replace (c : ARCCache K V) (b : Bool) :
    (c.replace b).t1 = c.t1.dropLast ∨ (c.replace b).t1 = c.t1 := by
  unfold ARCCache.replace
  split
  · exact Or.inl rfl
  · split
    · exact Or.inl rfl
    · exact Or.inr rfl

theorem ARCCache.size_replace (c : ARCCache K V) (b : Bool)
    (h : 1 ≤ c.size) : (c.replace b).size + 1 = c.size := by
  unfold ARCCache.replace
  by_cases h1 : 1 ≤ c.t1.length ∧
      (c.p < c.t1.length ∨ (b = true ∧ c.t1.length = c.p))
  · rw [if_pos h1]
    have h2 := h1.1
    rw [ARCCache.size_evictT1 c]
    unfold ARCCache.size at h ⊢
    omega
  · rw [if_neg h1]
    by_cases h2 : c.t2.length = 0
    · rw [if_pos h2]
      rw [ARCCache.size_evictT1 c]
      unfold ARCCache.size at h ⊢
      omega
    · rw [if_neg h2]
      rw [ARCCache.size_evictT2 c]
      unfold ARCCache.size at h ⊢
      omega

theorem ARCCache.capacity_maybeReplace (c : ARCCache K V) (b : Bool) :
    (c.maybeReplace b).capacity = c.capacity := by
  unfold ARCCache.maybeReplace
  split
  · exact ARCCache.capacity_replace c b
  · rfl

theorem ARCCache.p_maybeReplace (c : ARCCache K V) (b : Bool) :
    (c.maybeReplace b).p = c.p := by
  unfold ARCCache.maybeReplace
  split
  · exact ARCCache.p_replace c b
  · rfl

theorem ARCCache.t1_maybeReplace (c : ARCCache K V) (b : Bool) :
    (c.maybeReplace b).t1 = c.t1.dropLast ∨ (c.maybeReplace b).t1 = c.t1 := by
  unfold ARCCache.maybeReplace
  split
  · exact ARCCache.t1_replace c b
  · exact Or.inr rfl

theorem ARCCache.size_maybeReplace_succ_le (c : ARCCache K V) (b : Bool)
    (hcap : 1 ≤ c.capacity) (hle : c.size ≤ c.capacity) :
    (c.maybeReplace b).size + 1 ≤ c.capacity := by
  unfold ARCCache.maybeReplace
  by_cases hfull : c.size = c.capacity
  · rw [if_pos hfull]
    have := ARCCache.size_replace c b (by omega)
    omega
  · rw [if_neg hfull]
    omega

theorem ARCCache.size_maybeReplace_full (c : ARCCache K V) (b : Bool)
    (hcap : 1 ≤ c.capacity) (hfull : c.size = c.capacity) :
    (c.maybeReplace b).size + 1 = c.capacity := by
  unfold ARCCache.maybeReplace
  rw [if_pos hfull]
  have := ARCCache.size_replace c b (by omega)
  omega

theorem not_mem_filter_ne (k : K) (l : List K) :
    k ∉ l.filter (fun j => decide (j ≠ k)) := by
  intro h
  have := List.of_mem_filter h
  simp at this

theorem mem_keys_of_mem_keys_dropLast (k : K) (l : List (K × V))
    (h : k ∈ keys l.dropLast) : k ∈ keys l :=
  ((l.dropLast_sublist).map Prod.fst).subset h

theorem arc_capacity_setCore (c : ARCCache K V) (k : K) (v : V) :
    (c.setCore k v).capacity = c.capacity := by
  unfold ARCCache.setCore
  by_cases h1 : k ∈ keys c.t1
  · rw [if_pos h1]
  · rw [if_neg h1]
    by_cases h2 : k ∈ keys c.t2
    · rw [if_pos h2]
    · rw [if_neg h2]
      by_cases h3 : k ∈ c.b1
      · rw [if_pos h3]
        show (ARCCache.maybeReplace _ false).capacity = c.capacity
        rw [ARCCache.capacity_maybeReplace]
      · rw [if_neg h3]
        by_cases h4 : k ∈ c.b2
        · rw [if_pos h4]
          show (ARCCache.maybeReplace _ true).capacity = c.capacity
          rw [ARCCache.capacity_maybeReplace]
        · rw [if_neg h4]
          show (ARCCache.maybeReplace c false).capacity = c.capacity
          rw [ARCCache.capacity_maybeReplace]

theorem arc_size_setCore_le (c : ARCCache K V) (k : K) (v : V)
    (hcap : 1 ≤ c.capacity) (hle : c.size ≤ c.capacity) :
    (c.setCore k v).size ≤ c.capacity := by
  unfold ARCCache.setCore
  by_cases h1 : k ∈ keys c.t1
  · rw [if_pos h1]
    have ht1 := length_removeKey_lt k c.t1 h1
    have ht2 := length_removeKey_le k c.t2
    unfold ARCCache.size at hle ⊢
    simp only [List.length_cons]
    omega
  · rw [if_neg h1]
    by_cases h2 : k ∈ keys c.t2
    · rw [if_pos h2]
      have ht2 := length_removeKey_lt k c.t2 h2
      unfold ARCCache.size at hle ⊢
      simp only [List.length_cons]
      omega
    · rw [if_neg h2]
      by_cases h3 : k ∈ c.b1
      · rw [if_pos h3]
        have hms := ARCCache.size_maybeReplace_succ_le
          { c with p := min c.capacity (c.p + c.deltaUp) } false hcap hle
        dsimp only at hms
        unfold ARCCache.size at hms ⊢
        simp only [List.length_cons]
        omega
      · rw [if_neg h3]
        by_cases h4 : k ∈ c.b2
        · rw [if_pos h4]
          have hms := ARCCache.size_maybeReplace_succ_le
            { c with p := c.p - c.deltaDown } true hcap hle
          dsimp only at hms
          unfold ARCCache.size at hms ⊢
          simp only [List.length_cons]
          omega
        · rw [if_neg h4]
          have hms := ARCCache.size_maybeReplace_succ_le c false hcap hle
          unfold ARCCache.size at hms ⊢
          simp only [List.length_cons]
          omega

theorem arc_size_applySets_le (c : ARCCache K V) (ops : List (K × V))
    (hcap : 1 ≤ c.capacity) (hle : c.size ≤ c.capacity) :
    (c.applySets ops).size ≤ c.capacity := by
  induction ops generalizing c with
  | nil => exact hle
  | cons op rest ih =>
    have hcap2 : 1 ≤ (c.setCore op.1 op.2).capacity := by
      rw [arc_capacity_setCore]; exact hcap
    have hle2 : (c.setCore op.1 op.2).size ≤ (c.setCore op.1 op.2).capacity := by
      rw [arc_capacity_setCore]
      exact arc_size_setCore_le c op.1 op.2 hcap hle
    have := ih (c.setCore op.1 op.2) hcap2 hle2
    rw [arc_capacity_setCore] at this
    exact this

theorem arc_size_setCore_full (c : ARCCache K V) (k : K) (v : V)
    (hcap : 1 ≤ c.capacity) (hfull : c.size = c.capacity)
    (hnew1 : k ∉ keys c.t1) (hnew2 : k ∉ keys c.t2) :
    (c.setCore k v).size = c.capacity ∧
      (k ∈ keys (c.setCore k v).t1 ∨ k ∈ keys (c.setCore k v).t2) := by
  unfold ARCCache.setCore
  rw [if_neg hnew1, if_neg hnew2]
  by_cases h3 : k ∈ c.b1
  · rw [if_pos h3]
    have hms := ARCCache.size_maybeReplace_full
      { c with p := min c.capacity (c.p + c.deltaUp) } false hcap hfull
    dsimp only at hms
    constructor
    · unfold ARCCache.size at hms ⊢
      simp only [List.length_cons]
      omega
    · exact Or.inr ((mem_keys_cons k (k, v) _).mpr (Or.inl rfl))
  · rw [if_neg h3]
    by_cases h4 : k ∈ c.b2
    · rw [if_pos h4]
      have hms := ARCCache.size_maybeReplace_full
        { c with p := c.p - c.deltaDown } true hcap hfull
      dsimp only at hms
      constructor
      · unfold ARCCache.size at hms ⊢
        simp only [List.length_cons]
        omega
      · exact Or.inr ((mem_keys_cons k (k, v) _).mpr (Or.inl rfl))
    · rw [if_neg h4]
      have hms := ARCCache.size_maybeReplace_full c false hcap hfull
      constructor
      · unfold ARCCache.size at hms ⊢
        simp only [List.length_cons]
        omega
      · exact Or.inl ((mem_keys_cons k (k, v) _).mpr (Or.inl rfl))

/-
  Grading model, embedded from scripts/grade.go.  A TestResult keeps the two
  fields of the parsed go-test JSON event that the scoring logic reads: the
  Action string and the Test name.
-/

/-- A parsed go-test JSON event, restricted to the fields the grader
scores on (Action and Test). -/
structure TestResult where
  action : String
  test : String

/-- Substring test on character lists, mirroring strings.Contains: the
pattern occurs as a contiguous run (the empty pattern always occurs). -/
def listContains (pat : List Char) : List Char → Bool
  | [] => pat.isEmpty
  | c :: rest => pat.isPrefixOf (c :: rest) || listContains pat rest

/-- Substring test on strings, mirroring strings.Contains(s, pat). -/
def strContains (s pat : String) : Bool := listContains pat.toList s.toList

/-- The test suites and their point values, from grade.go (the Go map is
iterated in arbitrary order; the total is order-independent). -/
def testSuites : List (String × Nat) :=
  [("TestFIFOCache", 10), ("TestLRUCache", 10),
   ("TestLFUCache", 10), ("TestTTLCache", 10)]

/-- A suite passes when some parsed event has Action pass and a Test name
containing the suite name, as in the scoring loop of grade.go. -/
def suitePassed (events : List TestResult) (testName : String) : Bool :=
  events.any (fun r => r.action == "pass" && strContains r.test testName)

/-- All-or-nothing points for one suite, as in grade.go. -/
def suitePoints (events : List TestResult) (testName : String)
    (maxPoints : Nat) : Nat :=
  if suitePassed events testName then maxPoints else 0

/-- The total score of a grading run: the per-suite points summed over the
four suites, where ev gives the parsed events of the run of each suite. -/
def totalScore (ev : String → List TestResult) : Nat :=
  (testSuites.map (fun s => suitePoints (ev s.1) s.1 s.2)).sum

theorem suitePassed_iff (events : List TestResult) (n : String) :
    suitePassed events n = true ↔
      ∃ r ∈ events, r.action = "pass" ∧ strContains r.test n = true := by
  simp [suitePassed, List.any_eq_true, Bool.and_eq_true]

theorem suitePoints_le (events : List TestResult) (n : String) (m : Nat) :
    suitePoints events n m ≤ m := by
  unfold suitePoints
  split
  · exact Nat.le_refl m
  · exact Nat.zero_le m

theorem suitePoints_eq_ite (events : List TestResult) (n : String) (m : Nat) :
    suitePoints events n m =
      if ∃ r ∈ events, r.action = "pass" ∧ strContains r.test n = true
      then m else 0 := by
  unfold suitePoints
  by_cases h : suitePassed events n = true
  · rw [if_pos h, if_pos ((suitePassed_iff events n).mp h)]
  · rw [if_neg h, if_neg (fun he => h ((suitePassed_iff events n).mpr he))]

theorem totalScore_eq (ev : String → List TestResult) :
    totalScore ev =
      suitePoints (ev "TestFIFOCache") "TestFIFOCache" 10 +
      suitePoints (ev "TestLRUCache") "TestLRUCache" 10 +
      suitePoints (ev "TestLFUCache") "TestLFUCache" 10 +
      suitePoints (ev "TestTTLCache") "TestTTLCache" 10 := by
  simp [totalScore, testSuites]
  omega

theorem totalScore_le_forty (ev : String → List TestResult) :
    totalScore ev ≤ 40 := by
  rw [totalScore_eq]
  have h1 := suitePoints_le (ev "TestFIFOCache") "TestFIFOCache" 10
  have h2 := suitePoints_le (ev "TestLRUCache") "TestLRUCache" 10
  have h3 := suitePoints_le (ev "TestLFUCache") "TestLFUCache" 10
  have h4 := suitePoints_le (ev "TestTTLCache") "TestTTLCache" 10
  omega

/-- C1: for every policy (FIFO, LRU, LFU, TTL, ARC) and every sequence of
Set calls on a cache constructed with a positive capacity, the number of
stored entries after each operation is at most the capacity; and a Set of a
new key when the size equals the capacity removes exactly one existing
entry, chosen by the policy rule, before inserting the new one — stated as:
the size stays exactly at capacity and the new key is present, the net of
one removal and one insertion. -/
theorem claim_C1 :
    (∀ (K V : Type) [DecidableEq K] (cap : Nat) (ops : List (K × V)),
      1 ≤ cap →
      (FIFOCache.applySets { capacity := cap, entries := [] } ops).size ≤ cap) ∧
    (∀ (K V : Type) [DecidableEq K] (c : FIFOCache K V) (k : K) (v : V),
      1 ≤ c.capacity → c.size = c.capacity → k ∉ keys c.entries →
      (c.setCore k v).size = c.capacity ∧ k ∈ keys (c.setCore k v).entries) ∧
    (∀ (K V : Type) [DecidableEq K] (cap : Nat) (ops : List (K × V)),
      1 ≤ cap →
      (LRUCache.applySets { capacity := cap, entries := [] } ops).size ≤ cap) ∧
    (∀ (K V : Type) [DecidableEq K] (c : LRUCache K V) (k : K) (v : V),
      1 ≤ c.capacity → c.size = c.capacity → k ∉ keys c.entries →
      (c.setCore k v).size = c.capacity ∧ k ∈ keys (c.setCore k v).entries) ∧
    (∀ (K V : Type) [DecidableEq K] (cap : Nat) (ops : List (K × V)),
      1 ≤ cap →
      (LFUCache.applySets { capacity := cap, entries := [] } ops).size ≤ cap) ∧
    (∀ (K V : Type) [DecidableEq K] (c : LFUCache K V) (k : K) (v : V),
      1 ≤ c.capacity → c.size = c.capacity → k ∉ keys c.entries →
      (c.setCore k v).size = c.capacity ∧ k ∈ keys (c.setCore k v).entries) ∧
    (∀ (K V : Type) [DecidableEq K] (cap : Nat) (ops : List (Nat × K × V)),
      1 ≤ cap →
      (TTLCache.applySets { capacity := cap, ttl := 100, entries := [] } ops).size ≤ cap) ∧
    (∀ (K V : Type) [DecidableEq K] (c : TTLCache K V) (now : Nat) (k : K) (v : V),
      1 ≤ c.capacity → c.size = c.capacity → k ∉ keys c.entries →
      (c.setCore now k v).size = c.capacity ∧
        k ∈ keys (c.setCore now k v).entries) ∧
    (∀ (K V : Type) [DecidableEq K] (cap : Nat) (ops : List (K × V)),
      1 ≤ cap →
      (ARCCache.applySets
        { capacity := cap, t1 := [], t2 := [], b1 := [], b2 := [], p := 0 }
        ops).size ≤ cap) ∧
    (∀ (K V : Type) [DecidableEq K] (c : ARCCache K V) (k : K) (v : V),
      1 ≤ c.capacity → c.size = c.capacity →
      k ∉ keys c.t1 → k ∉ keys c.t2 →
      (c.setCore k v).size = c.capacity ∧
        (k ∈ keys (c.setCore k v).t1 ∨ k ∈ keys (c.setCore k v).t2)) := by
  refine ⟨?_, ?_, ?_, ?_, ?_, ?_, ?_, ?_, ?_, ?_⟩
  · intro K V _ cap ops h
    exact fifo_size_applySets_le _ ops h (Nat.zero_le cap)
  · intro K V _ c k v hcap hfull hnew
    exact fifo_size_setCore_full c k v hcap hfull hnew
  · intro K V _ cap ops h
    exact lru_size_applySets_le _ ops h (Nat.zero_le cap)
  · intro K V _ c k v hcap hfull hnew
    exact lru_size_setCore_full c k v hcap hfull hnew
  · intro K V _ cap ops h
    exact lfu_size_applySets_le _ ops h (Nat.zero_le cap)
  · intro K V _ c k v hcap hfull hnew
    exact lfu_size_setCore_full c k v hcap hfull hnew
  · intro K V _ cap ops h
    exact ttl_size_applySets_le _ ops h (Nat.zero_le cap)
  · intro K V _ c now k v hcap hfull hnew
    exact ttl_size_setCore_full c now k v hcap hfull hnew
  · intro K V _ cap ops h
    exact arc_size_applySets_le _ ops h (Nat.zero_le cap)
  · intro K V _ c k v hcap hfull hnew1 hnew2
    exact arc_size_setCore_full c k v hcap hfull hnew1 hnew2

/-- Witness for C1: the FIFO bound on a concrete two-Set run at capacity 1,
and the ARC one-out-one-in step at a concrete full cache of capacity 2. -/
theorem claim_C1_witness :
    ((FIFOCache.applySets { capacity := 1, entries := [] }
        [(1, 2), (3, 4)] : FIFOCache Nat Nat).size ≤ 1) ∧
    ((({ capacity := 2, t1 := [(1, 10)], t2 := [(2, 20)], b1 := [], b2 := [],
         p := 0 } : ARCCache Nat Nat).setCore 3 30).size = 2) := by
  constructor
  · exact claim_C1.1 Nat Nat 1 [(1, 2), (3, 4)] (by decide)
  · exact (claim_C1.2.2.2.2.2.2.2.2.2 Nat Nat
      { capacity := 2, t1 := [(1, 10)], t2 := [(2, 20)], b1 := [], b2 := [],
        p := 0 } 3 30 (by decide) (by decide) (by decide) (by decide)).1

theorem FIFOCache.applyOps_gets (c : FIFOCache K V) (gs : List (CacheOp K V))
    (h : ∀ o ∈ gs, ∃ j, o = CacheOp.get j) : c.applyOps gs = c := by
  induction gs generalizing c with
  | nil => rfl
  | cons o rest ih =>
    rcases h o (List.mem_cons_self o rest) with ⟨j, hj⟩
    show FIFOCache.applyOps (c.applyOp o) rest = c
    rw [hj]
    exact ih c (fun o2 ho2 => h o2 (List.mem_cons_of_mem o ho2))

/-- The capacity-3 FIFO run of the C2 scenario: Set a, b, c, d with
arbitrary operation lists interleaved between the Sets. -/
def fifoC2 (gs1 gs2 gs3 : List (CacheOp String Nat)) : FIFOCache String Nat :=
  ((((((FIFOCache.setCore { capacity := 3, entries := [] } "a" 1).applyOps
      gs1).setCore "b" 2).applyOps gs2).setCore "c" 3).applyOps
      gs3).setCore "d" 4

/-- C2: in a FIFO cache of capacity 3, after Set a, Set b, Set c, Set d the
entry for a is evicted (Get a fails with the KeyNotFound sentinel) while b,
c, d remain retrievable with their values, and this holds for any Get calls
on a interleaved between the Sets. -/
theorem claim_C2 (gs1 gs2 gs3 : List (CacheOp String Nat))
    (h1 : ∀ o ∈ gs1, o = CacheOp.get "a")
    (h2 : ∀ o ∈ gs2, o = CacheOp.get "a")
    (h3 : ∀ o ∈ gs3, o = CacheOp.get "a") :
    (fifoC2 gs1 gs2 gs3).get "a" = Except.error ErrKeyNotFound ∧
    (fifoC2 gs1 gs2 gs3).get "b" = Except.ok 2 ∧
    (fifoC2 gs1 gs2 gs3).get "c" = Except.ok 3 ∧
    (fifoC2 gs1 gs2 gs3).get "d" = Except.ok 4 := by
  unfold fifoC2
  rw [FIFOCache.applyOps_gets _ gs1 (fun o ho => ⟨"a", h1 o ho⟩),
      FIFOCache.applyOps_gets _ gs2 (fun o ho => ⟨"a", h2 o ho⟩),
      FIFOCache.applyOps_gets _ gs3 (fun o ho => ⟨"a", h3 o ho⟩)]
  exact ⟨rfl, rfl, rfl, rfl⟩

/-- Witness for C2: one interleaved Get a between each pair of Sets. -/
theorem claim_C2_witness :
    (fifoC2 [CacheOp.get "a"] [CacheOp.get "a"] [CacheOp.get "a"]).get "a" =
        Except.error ErrKeyNotFound ∧
    (fifoC2 [CacheOp.get "a"] [CacheOp.get "a"] [CacheOp.get "a"]).get "b" =
        Except.ok 2 ∧
    (fifoC2 [CacheOp.get "a"] [CacheOp.get "a"] [CacheOp.get "a"]).get "c" =
        Except.ok 3 ∧
    (fifoC2 [CacheOp.get "a"] [CacheOp.get "a"] [CacheOp.get "a"]).get "d" =
        Except.ok 4 :=
  claim_C2 [CacheOp.get "a"] [CacheOp.get "a"] [CacheOp.get "a"]
    (fun _ ho => List.mem_singleton.mp ho)
    (fun _ ho => List.mem_singleton.mp ho)
    (fun _ ho => List.mem_singleton.mp ho)

/-- The LRU state of the C3 scenario after Set a, Set b, Set c, Get a,
Set d at capacity 3. -/
def lruC3a : LRUCache String Nat :=
  ((((LRUCache.setCore { capacity := 3, entries := [] } "a" 1).setCore
      "b" 2).setCore "c" 3).get "a").2.setCore "d" 4

/-- The C3 state after the failing Get b. -/
def lruC3b : LRUCache String Nat := (lruC3a.get "b").2

/-- The C3 state after the subsequent Get a. -/
def lruC3c : LRUCache String Nat := (lruC3b.get "a").2

/-- The C3 state after the subsequent Get c. -/
def lruC3d : LRUCache String Nat := (lruC3c.get "c").2

/-- C3: in an LRU cache of capacity 3, after Set a, Set b, Set c, a Get a
and then Set d, the evicted entry is b: Get b fails with the KeyNotFound
sentinel while a, c, d are retrievable with their last-set values. -/
theorem claim_C3 :
    (lruC3a.get "b").1 = Except.error ErrKeyNotFound ∧
    (lruC3b.get "a").1 = Except.ok 1 ∧
    (lruC3c.get "c").1 = Except.ok 3 ∧
    (lruC3d.get "d").1 = Except.ok 4 :=
  ⟨rfl, rfl, rfl, rfl⟩

/-- The LFU state of the C4 scenario after Set a, Set b, Set c, three Get a,
one Get b, then Set d at capacity 3. -/
def lfuC4a : LFUCache String Nat :=
  (((((((LFUCache.setCore { capacity := 3, entries := [] } "a" 1).setCore
      "b" 2).setCore "c" 3).get "a").2.get "a").2.get
      "a").2.get "b").2.setCore "d" 4

/-- The C4 state after the failing Get c. -/
def lfuC4b : LFUCache String Nat := (lfuC4a.get "c").2

/-- The C4 state after the subsequent Get a. -/
def lfuC4c : LFUCache String Nat := (lfuC4b.get "a").2

/-- The C4 state after the subsequent Get b. -/
def lfuC4d : LFUCache String Nat := (lfuC4c.get "b").2

/-- C4: in an LFU cache of capacity 3 (frequencies start at 1 on insertion
and grow by 1 on every Get), after Set a, Set b, Set c, three Get a and one
Get b, the Set d evicts c, the entry of strictly smallest frequency: Get c
fails with the KeyNotFound sentinel while a, b, d are retrievable, and the
stored frequencies before the Set d are 4 for a, 2 for b and 1 for c. -/
theorem claim_C4 :
    (lfuC4a.get "c").1 = Except.error ErrKeyNotFound ∧
    (lfuC4b.get "a").1 = Except.ok 1 ∧
    (lfuC4c.get "b").1 = Except.ok 2 ∧
    (lfuC4d.get "d").1 = Except.ok 4 ∧
    (((((((LFUCache.setCore { capacity := 3, entries := [] } "a" 1).setCore
        "b" 2).setCore "c" 3).get "a").2.get "a").2.get
        "a").2.get "b").2.entries.map (fun e => (e.1, e.2.2)) =
      [("a", 4), ("b", 2), ("c", 1)] :=
  ⟨rfl, rfl, rfl, rfl, rfl⟩

theorem mem_keys_of_mem_sub (k : K) (l1 l2 : List (K × V))
    (hsub : ∀ e, e ∈ l1 → e ∈ l2) (h : k ∈ keys l1) : k ∈ keys l2 := by
  rcases List.mem_map.mp h with ⟨e, he, hk⟩
  exact List.mem_map.mpr ⟨e, hsub e he, hk⟩

theorem ttl_lookup_setCore (c : TTLCache K V) (now : Nat) (k : K) (v : V) :
    lookupKey k ((c.setCore now k v).entries) = some (v, now + c.ttl) := by
  unfold TTLCache.setCore
  by_cases h : k ∈ keys c.entries
  · rw [if_pos h]
    exact lookupKey_updateVal_self k (v, now + c.ttl) c.entries h
  · rw [if_neg h]
    show lookupKey k (_ ++ [(k, v, now + c.ttl)]) = _
    rw [lookupKey_append]
    have hsub : lookupKey k
        (if c.entries.length = c.capacity then c.entries.drop 1
         else c.entries) = none := by
      apply lookupKey_of_not_mem
      intro hk
      apply h
      by_cases hfull : c.entries.length = c.capacity
      · rw [if_pos hfull] at hk
        exact mem_keys_of_mem_sub k _ c.entries
          (fun e he => List.drop_subset 1 c.entries he) hk
      · rw [if_neg hfull] at hk
        exact hk
    rw [hsub]
    simp [lookupKey]

theorem ttl_get_expired (c : TTLCache K V) (now : Nat) (k : K) (ve : V × Nat)
    (hl : lookupKey k c.entries = some ve) (hexp : ve.2 ≤ now) :
    (c.get now k).1 = Except.error ErrKeyNotFound ∧
      k ∉ keys ((c.get now k).2.entries) := by
  simp only [TTLCache.get, hl]
  rw [if_pos hexp]
  exact ⟨rfl, not_mem_keys_removeKey k c.entries⟩

theorem ttl_ttl_setCore (c : TTLCache K V) (now : Nat) (k : K) (v : V) :
    (c.setCore now k v).ttl = c.ttl := by
  unfold TTLCache.setCore
  by_cases h : k ∈ keys c.entries
  · rw [if_pos h]
  · rw [if_neg h]

theorem ttl_set_get (c : TTLCache K V) (now : Nat) (k : K) (v : V)
    (httl : 1 ≤ c.ttl) :
    ((c.setCore now k v).get now k).1 = Except.ok v := by
  have hl := ttl_lookup_setCore c now k v
  simp only [TTLCache.get, hl]
  have hcond : ¬ ((v, now + c.ttl) : V × Nat).2 ≤ now := by
    show ¬ now + c.ttl ≤ now
    omega
  rw [if_neg hcond]

/-- The TTL trace of the C5 scenario: capacity 3, duration 100, Set a and
Set b at time 0. -/
def ttlC5a : TTLCache String Nat :=
  (TTLCache.setCore { capacity := 3, ttl := 100, entries := [] }
    0 "a" 1).setCore 0 "b" 2

/-- The C5 state after the expired Get a at time 150. -/
def ttlC5b : TTLCache String Nat := (ttlC5a.get 150 "a").2

/-- The C5 state after the expired Get b at time 150 and a Set c there. -/
def ttlC5c : TTLCache String Nat := (ttlC5b.get 150 "b").2.setCore 150 "c" 3

/-- C5: a TTL entry gets expiry instant current time plus the duration at
Set time; a Get at or after that instant removes the entry and fails with
the KeyNotFound sentinel; a key Set afterwards (positive duration) is
immediately retrievable; and in the concrete 100ms run, Set a, Set b at
time 0 read fine at time 0, both Gets fail at time 150, and a c Set at 150
is retrievable at once. -/
theorem claim_C5 :
    (∀ (K V : Type) [DecidableEq K] (c : TTLCache K V) (now : Nat) (k : K)
      (v : V),
      lookupKey k ((c.setCore now k v).entries) = some (v, now + c.ttl)) ∧
    (∀ (K V : Type) [DecidableEq K] (c : TTLCache K V) (now : Nat) (k : K)
      (ve : V × Nat), lookupKey k c.entries = some ve → ve.2 ≤ now →
      (c.get now k).1 = Except.error ErrKeyNotFound ∧
        k ∉ keys ((c.get now k).2.entries)) ∧
    (∀ (K V : Type) [DecidableEq K] (c : TTLCache K V) (now : Nat) (k : K)
      (v : V), 1 ≤ c.ttl →
      ((c.setCore now k v).get now k).1 = Except.ok v) ∧
    ((ttlC5a.get 0 "a").1 = Except.ok 1 ∧
     (ttlC5a.get 150 "a").1 = Except.error ErrKeyNotFound ∧
     (ttlC5b.get 150 "b").1 = Except.error ErrKeyNotFound ∧
     (ttlC5c.get 150 "c").1 = Except.ok 3) := by
  refine ⟨?_, ?_, ?_, rfl, rfl, rfl, rfl⟩
  · intro K V _ c now k v
    exact ttl_lookup_setCore c now k v
  · intro K V _ c now k ve hl hexp
    exact ttl_get_expired c now k ve hl hexp
  · intro K V _ c now k v httl
    exact ttl_set_get c now k v httl

/-- Witness for C5: the lazy-expiry part at a concrete one-entry cache with
the read at exactly the expiry instant, and the set-then-get part there. -/
theorem claim_C5_witness :
    ((TTLCache.get { capacity := 2, ttl := 7, entries := [(5, 9, 30)] }
        30 5).1 = Except.error ErrKeyNotFound ∧
      5 ∉ keys ((TTLCache.get
        { capacity := 2, ttl := 7, entries := [(5, 9, 30)] }
        30 5).2.entries : List (Nat × Nat × Nat))) ∧
    ((TTLCache.setCore { capacity := 2, ttl := 7, entries := [] }
        3 5 9).get 3 5).1 = Except.ok 9 :=
  ⟨claim_C5.2.1 Nat Nat { capacity := 2, ttl := 7, entries := [(5, 9, 30)] }
      30 5 (9, 30) rfl (by decide),
   claim_C5.2.2.1 Nat Nat { capacity := 2, ttl := 7, entries := [] }
      3 5 9 (by decide)⟩

/-- C6: on a FIFO cache, Set of an already-present key updates the value
returned by Get but leaves the size, the key order (hence the insertion and
eviction positions) and every other binding unchanged — the re-Set behaves
as a pure value replacement, not a new insertion. -/
theorem claim_C6 (K V : Type) [DecidableEq K] (c : FIFOCache K V) (k : K)
    (v : V) (h : k ∈ keys c.entries) :
    keys (c.setCore k v).entries = keys c.entries ∧
    (c.setCore k v).size = c.size ∧
    lookupKey k ((c.setCore k v).entries) = some v ∧
    ∀ j, j ≠ k →
      lookupKey j ((c.setCore k v).entries) = lookupKey j c.entries := by
  unfold FIFOCache.setCore FIFOCache.size
  rw [if_pos h]
  exact ⟨keys_updateVal k v c.entries, length_updateVal k v c.entries,
    lookupKey_updateVal_self k v c.entries h,
    fun j hj => lookupKey_updateVal_ne j k v c.entries hj⟩

/-- Witness for C6: re-Set of key 1 in a concrete two-entry FIFO cache. -/
theorem claim_C6_witness :
    keys ((FIFOCache.setCore
        { capacity := 2, entries := [(1, 5), (2, 6)] } 1 9).entries) =
      keys ([(1, 5), (2, 6)] : List (Nat × Nat)) ∧
    (FIFOCache.setCore
        { capacity := 2, entries := [(1, 5), (2, 6)] } 1 9).size =
      FIFOCache.size { capacity := 2, entries := [(1, 5), (2, 6)] } ∧
    lookupKey 1 ((FIFOCache.setCore
        { capacity := 2, entries := [(1, 5), (2, 6)] } 1 9).entries) =
      some 9 ∧
    lookupKey 2 ((FIFOCache.setCore
        { capacity := 2, entries := [(1, 5), (2, 6)] } 1 9).entries) =
      lookupKey 2 [(1, 5), (2, 6)] := by
  have h := claim_C6 Nat Nat
    { capacity := 2, entries := [(1, 5), (2, 6)] } 1 9 (by decide)
  exact ⟨h.1, h.2.1, h.2.2.1, h.2.2.2 2 (by decide)⟩

theorem ARCCache.t1_setCore_ghost1 (c : ARCCache K V) (k : K) (v : V)
    (h1 : k ∉ keys c.t1) (h2 : k ∉ keys c.t2) (hb : k ∈ c.b1) :
    k ∉ keys (c.setCore k v).t1 := by
  unfold ARCCache.setCore
  rw [if_neg h1, if_neg h2, if_pos hb]
  intro hk
  have hk2 : k ∈ keys ((ARCCache.maybeReplace
      { c with p := min c.capacity (c.p + c.deltaUp) } false).t1) := hk
  rcases ARCCache.t1_maybeReplace
      { c with p := min c.capacity (c.p + c.deltaUp) } false with he | he
  · rw [he] at hk2
    exact h1 (mem_keys_of_mem_keys_dropLast k c.t1 hk2)
  · rw [he] at hk2
    exact h1 hk2

/-- C7: on an ARC cache whose adaptation parameter is within bounds, a Set
of a key that is absent from the resident lists but has a ghost record in
B1 raises p by the ghost-ratio increment (clamped into the 0..capacity
range, hence never below its old value), removes the ghost from B1 and
inserts the new entry at the most-recently-used head of T2, not in T1; a
Get miss on such a key adapts p the same way, drops the ghost and fails
with the KeyNotFound sentinel (a Get carries no value to admit). -/
theorem claim_C7 (K V : Type) [DecidableEq K] (c : ARCCache K V) (k : K)
    (v : V) (hp : c.p ≤ c.capacity) (h1 : k ∉ keys c.t1)
    (h2 : k ∉ keys c.t2) (hb : k ∈ c.b1) :
    ((c.setCore k v).p = min c.capacity (c.p + c.deltaUp) ∧
     c.p ≤ (c.setCore k v).p ∧ (c.setCore k v).p ≤ c.capacity ∧
     k ∉ (c.setCore k v).b1 ∧
     (c.setCore k v).t2.head? = some (k, v) ∧
     k ∉ keys (c.setCore k v).t1) ∧
    ((c.get k).1 = Except.error ErrKeyNotFound ∧
     (c.get k).2.p = min c.capacity (c.p + c.deltaUp) ∧
     c.p ≤ (c.get k).2.p ∧ (c.get k).2.p ≤ c.capacity ∧
     k ∉ (c.get k).2.b1) := by
  have hmono : c.p ≤ min c.capacity (c.p + c.deltaUp) :=
    le_min hp (Nat.le_add_right c.p c.deltaUp)
  have hbound : min c.capacity (c.p + c.deltaUp) ≤ c.capacity :=
    min_le_left c.capacity (c.p + c.deltaUp)
  constructor
  · have ht1 := ARCCache.t1_setCore_ghost1 c k v h1 h2 hb
    unfold ARCCache.setCore
    rw [if_neg h1, if_neg h2, if_pos hb]
    unfold ARCCache.setCore at ht1
    rw [if_neg h1, if_neg h2, if_pos hb] at ht1
    refine ⟨?_, ?_, ?_, ?_, rfl, ht1⟩
    · show (ARCCache.maybeReplace
        { c with p := min c.capacity (c.p + c.deltaUp) } false).p = _
      rw [ARCCache.p_maybeReplace]
    · show c.p ≤ (ARCCache.maybeReplace
        { c with p := min c.capacity (c.p + c.deltaUp) } false).p
      rw [ARCCache.p_maybeReplace]
      exact hmono
    · show (ARCCache.maybeReplace
        { c with p := min c.capacity (c.p + c.deltaUp) } false).p ≤ c.capacity
      rw [ARCCache.p_maybeReplace]
      exact hbound
    · exact not_mem_filter_ne k _
  · have e1 : lookupKey k c.t1 = none := lookupKey_of_not_mem k c.t1 h1
    have e2 : lookupKey k c.t2 = none := lookupKey_of_not_mem k c.t2 h2
    simp only [ARCCache.get, e1, e2]
    rw [if_pos hb]
    exact ⟨rfl, rfl, hmono, hbound, not_mem_filter_ne k c.b1⟩

/-- The concrete ARC state of the C7 witness: capacity 2, key 1 resident in
T1, key 2 recorded as a B1 ghost. -/
def arcC7 : ARCCache Nat Nat :=
  { capacity := 2, t1 := [(1, 10)], t2 := [], b1 := [2, 3], b2 := [5],
    p := 1 }

/-- Witness for C7: a concrete ARC cache of capacity 2 holding key 1 in T1
with key 2 recorded as a B1 ghost. -/
theorem claim_C7_witness :
    (((arcC7.setCore 2 7).p = min arcC7.capacity (arcC7.p + arcC7.deltaUp) ∧
      arcC7.p ≤ (arcC7.setCore 2 7).p ∧
      (arcC7.setCore 2 7).p ≤ arcC7.capacity ∧
      (2 : Nat) ∉ (arcC7.setCore 2 7).b1 ∧
      (arcC7.setCore 2 7).t2.head? = some (2, 7) ∧
      (2 : Nat) ∉ keys (arcC7.setCore 2 7).t1) ∧
    ((arcC7.get 2).1 = Except.error ErrKeyNotFound ∧
      (arcC7.get 2).2.p = min arcC7.capacity (arcC7.p + arcC7.deltaUp) ∧
      arcC7.p ≤ (arcC7.get 2).2.p ∧
      (arcC7.get 2).2.p ≤ arcC7.capacity ∧
      (2 : Nat) ∉ (arcC7.get 2).2.b1)) :=
  claim_C7 Nat Nat arcC7 2 7 (by decide) (by decide) (by decide) (by decide)

/-- C8: in every policy, Get on an absent key and Delete on an absent key
fail with one and the same sentinel value ErrKeyNotFound (the only value of
the error kind), for every absence cause including TTL expiry. -/
theorem claim_C8 :
    (∀ e : CacheError, e = ErrKeyNotFound) ∧
    (∀ (K V : Type) [DecidableEq K] (c : FIFOCache K V) (k : K),
      k ∉ keys c.entries →
      c.get k = Except.error ErrKeyNotFound ∧
      c.delete k = Except.error ErrKeyNotFound) ∧
    (∀ (K V : Type) [DecidableEq K] (c : LRUCache K V) (k : K),
      k ∉ keys c.entries →
      (c.get k).1 = Except.error ErrKeyNotFound ∧
      c.delete k = Except.error ErrKeyNotFound) ∧
    (∀ (K V : Type) [DecidableEq K] (c : LFUCache K V) (k : K),
      k ∉ keys c.entries →
      (c.get k).1 = Except.error ErrKeyNotFound ∧
      c.delete k = Except.error ErrKeyNotFound) ∧
    (∀ (K V : Type) [DecidableEq K] (c : TTLCache K V) (now : Nat) (k : K),
      k ∉ keys c.entries →
      (c.get now k).1 = Except.error ErrKeyNotFound ∧
      c.delete k = Except.error ErrKeyNotFound) ∧
    (∀ (K V : Type) [DecidableEq K] (c : TTLCache K V) (now : Nat) (k : K)
      (ve : V × Nat), lookupKey k c.entries = some ve → ve.2 ≤ now →
      (c.get now k).1 = Except.error ErrKeyNotFound) ∧
    (∀ (K V : Type) [DecidableEq K] (c : ARCCache K V) (k : K),
      k ∉ keys c.t1 → k ∉ keys c.t2 →
      (c.get k).1 = Except.error ErrKeyNotFound ∧
      c.delete k = Except.error ErrKeyNotFound) := by
  refine ⟨?_, ?_, ?_, ?_, ?_, ?_, ?_⟩
  · intro e
    cases e
    rfl
  · intro K V _ c k h
    have e1 := lookupKey_of_not_mem k c.entries h
    constructor
    · simp only [FIFOCache.get, e1]
    · unfold FIFOCache.delete
      rw [if_neg h]
  · intro K V _ c k h
    have e1 := lookupKey_of_not_mem k c.entries h
    constructor
    · simp only [LRUCache.get, e1]
    · unfold LRUCache.delete
      rw [if_neg h]
  · intro K V _ c k h
    have e1 := lookupKey_of_not_mem k c.entries h
    constructor
    · simp only [LFUCache.get, e1]
    · unfold LFUCache.delete
      rw [if_neg h]
  · intro K V _ c now k h
    have e1 := lookupKey_of_not_mem k c.entries h
    constructor
    · simp only [TTLCache.get, e1]
    · unfold TTLCache.delete
      rw [if_neg h]
  · intro K V _ c now k ve hl hexp
    exact (ttl_get_expired c now k ve hl hexp).1
  · intro K V _ c k h1 h2
    have e1 := lookupKey_of_not_mem k c.t1 h1
    have e2 := lookupKey_of_not_mem k c.t2 h2
    constructor
    · simp only [ARCCache.get, e1, e2]
      by_cases hb1 : k ∈ c.b1
      · rw [if_pos hb1]
      · rw [if_neg hb1]
        by_cases hb2 : k ∈ c.b2
        · rw [if_pos hb2]
        · rw [if_neg hb2]
    · unfold ARCCache.delete
      rw [if_neg (fun hor => Or.elim hor h1 h2)]

/-- Witness for C8: the absent key 0 in empty FIFO and ARC caches of
capacity 1. -/
theorem claim_C8_witness :
    (FIFOCache.get
        ({ capacity := 1, entries := [] } : FIFOCache Nat Nat) 0 =
        Except.error ErrKeyNotFound ∧
      FIFOCache.delete
        ({ capacity := 1, entries := [] } : FIFOCache Nat Nat) 0 =
        Except.error ErrKeyNotFound) ∧
    ((ARCCache.get
        ({ capacity := 1, t1 := [], t2 := [], b1 := [], b2 := [], p := 0 } :
          ARCCache Nat Nat) 0).1 = Except.error ErrKeyNotFound ∧
      ARCCache.delete
        ({ capacity := 1, t1 := [], t2 := [], b1 := [], b2 := [], p := 0 } :
          ARCCache Nat Nat) 0 = Except.error ErrKeyNotFound) :=
  ⟨claim_C8.2.1 Nat Nat { capacity := 1, entries := [] } 0 (by decide),
   claim_C8.2.2.2.2.2.2 Nat Nat
     { capacity := 1, t1 := [], t2 := [], b1 := [], b2 := [], p := 0 }
     0 (by decide) (by decide)⟩

/-- C9: constructing any of the five caches with capacity at most zero
fails at construction time (the constructor returns nothing), a capacity of
at least one always constructs, and Set never fails on any cache state, for
any key and value. -/
theorem claim_C9 :
    (∀ (K V : Type) [DecidableEq K] (cap : Int), cap ≤ 0 →
      NewFIFOCache K V cap = none ∧ NewLRUCache K V cap = none ∧
      NewLFUCache K V cap = none ∧
      (∀ d : Nat, NewTTLCache K V cap d = none) ∧
      NewARCCache K V cap = none) ∧
    (∀ (K V : Type) [DecidableEq K] (cap : Int), 1 ≤ cap →
      (∃ c : FIFOCache K V, NewFIFOCache K V cap = some c) ∧
      (∃ c : LRUCache K V, NewLRUCache K V cap = some c) ∧
      (∃ c : LFUCache K V, NewLFUCache K V cap = some c) ∧
      (∀ d : Nat, ∃ c : TTLCache K V, NewTTLCache K V cap d = some c) ∧
      (∃ c : ARCCache K V, NewARCCache K V cap = some c)) ∧
    (∀ (K V : Type) [DecidableEq K] (c : FIFOCache K V) (k : K) (v : V),
      ∃ c2, c.set k v = Except.ok c2) ∧
    (∀ (K V : Type) [DecidableEq K] (c : LRUCache K V) (k : K) (v : V),
      ∃ c2, c.set k v = Except.ok c2) ∧
    (∀ (K V : Type) [DecidableEq K] (c : LFUCache K V) (k : K) (v : V),
      ∃ c2, c.set k v = Except.ok c2) ∧
    (∀ (K V : Type) [DecidableEq K] (c : TTLCache K V) (now : Nat) (k : K)
      (v : V), ∃ c2, c.set now k v = Except.ok c2) ∧
    (∀ (K V : Type) [DecidableEq K] (c : ARCCache K V) (k : K) (v : V),
      ∃ c2, c.set k v = Except.ok c2) := by
  refine ⟨?_, ?_, ?_, ?_, ?_, ?_, ?_⟩
  · intro K V _ cap h
    refine ⟨?_, ?_, ?_, fun d => ?_, ?_⟩
    · unfold NewFIFOCache
      rw [if_pos h]
    · unfold NewLRUCache
      rw [if_pos h]
    · unfold NewLFUCache
      rw [if_pos h]
    · unfold NewTTLCache
      rw [if_pos h]
    · unfold NewARCCache
      rw [if_pos h]
  · intro K V _ cap h
    have hneg : ¬ cap ≤ 0 := by omega
    refine ⟨⟨{ capacity := cap.toNat, entries := [] }, ?_⟩,
      ⟨{ capacity := cap.toNat, entries := [] }, ?_⟩,
      ⟨{ capacity := cap.toNat, entries := [] }, ?_⟩,
      fun d => ⟨{ capacity := cap.toNat, ttl := d, entries := [] }, ?_⟩,
      ⟨{ capacity := cap.toNat, t1 := [], t2 := [], b1 := [], b2 := [],
         p := 0 }, ?_⟩⟩
    · unfold NewFIFOCache
      rw [if_neg hneg]
    · unfold NewLRUCache
      rw [if_neg hneg]
    · unfold NewLFUCache
      rw [if_neg hneg]
    · unfold NewTTLCache
      rw [if_neg hneg]
    · unfold NewARCCache
      rw [if_neg hneg]
  · intro K V _ c k v
    exact ⟨c.setCore k v, rfl⟩
  · intro K V _ c k v
    exact ⟨c.setCore k v, rfl⟩
  · intro K V _ c k v
    exact ⟨c.setCore k v, rfl⟩
  · intro K V _ c now k v
    exact ⟨c.setCore now k v, rfl⟩
  · intro K V _ c k v
    exact ⟨c.setCore k v, rfl⟩

/-- Witness for C9: a zero capacity is rejected by every constructor, a
capacity of 3 constructs, and a concrete FIFO Set returns a success. -/
theorem claim_C9_witness :
    NewFIFOCache Nat Nat 0 = none ∧
    (∃ c : FIFOCache Nat Nat, NewFIFOCache Nat Nat 3 = some c) ∧
    (∃ c2, FIFOCache.set { capacity := 1, entries := [] } (4 : Nat)
        (5 : Nat) = Except.ok c2) :=
  ⟨(claim_C9.1 Nat Nat 0 (by decide)).1,
   (claim_C9.2.1 Nat Nat 3 (by decide)).1,
   claim_C9.2.2.1 Nat Nat { capacity := 1, entries := [] } 4 5⟩

/-- C10: the grading script scores exactly the four suites TestFIFOCache,
TestLRUCache, TestLFUCache and TestTTLCache, each all-or-nothing at 10
points — the full 10 exactly when some parsed go-test event has Action pass
and a Test name containing the suite name — so the total is at most 40, and
runs differing only outside those four suites (such as TestARCCache or
TestCacheErrors events) score identically. -/
theorem claim_C10 :
    (∀ ev : String → List TestResult,
      totalScore ev =
        suitePoints (ev "TestFIFOCache") "TestFIFOCache" 10 +
        suitePoints (ev "TestLRUCache") "TestLRUCache" 10 +
        suitePoints (ev "TestLFUCache") "TestLFUCache" 10 +
        suitePoints (ev "TestTTLCache") "TestTTLCache" 10) ∧
    (∀ (events : List TestResult) (n : String) (m : Nat),
      suitePoints events n m =
        if ∃ r ∈ events, r.action = "pass" ∧ strContains r.test n = true
        then m else 0) ∧
    (∀ ev : String → List TestResult, totalScore ev ≤ 40) ∧
    (∀ ev ev2 : String → List TestResult,
      ev "TestFIFOCache" = ev2 "TestFIFOCache" →
      ev "TestLRUCache" = ev2 "TestLRUCache" →
      ev "TestLFUCache" = ev2 "TestLFUCache" →
      ev "TestTTLCache" = ev2 "TestTTLCache" →
      totalScore ev = totalScore ev2) := by
  refine ⟨totalScore_eq, suitePoints_eq_ite, totalScore_le_forty, ?_⟩
  intro ev ev2 h1 h2 h3 h4
  rw [totalScore_eq, totalScore_eq, h1, h2, h3, h4]

/-- Witness for C10: a run where every suite emits a passing event scores
at most 40 (in fact exactly 40), and the frame part at identical runs. -/
theorem claim_C10_witness :
    totalScore (fun n => [{ action := "pass", test := n }]) ≤ 40 ∧
    totalScore (fun n => [{ action := "pass", test := n }]) =
      totalScore (fun n => [{ action := "pass", test := n }]) ∧
    totalScore (fun n => [{ action := "pass", test := n }]) = 40 :=
  ⟨claim_C10.2.2.1 (fun n => [{ action := "pass", test := n }]),
   claim_C10.2.2.2 (fun n => [{ action := "pass", test := n }])
     (fun n => [{ action := "pass", test := n }]) rfl rfl rfl rfl,
   rfl⟩

end CacheLab
